import Mathlib

/-!
Shallow embedding of the URL-shortener core in `src/main.py`.

The in-memory store `fake_db : Dict[str, URLInfo]` is modelled as an
association list from short codes to records, in insertion order (Python
dicts preserve insertion order; insertion of a fresh key appends).
Randomness (`random.choice(characters)`) is modelled as an explicit stream
of character picks `rnd : Nat → Fin 62`; the unbounded `while True` retry
loop of `generate_short_code` is modelled with explicit fuel, returning
`Option`.  Raising `HTTPException 404` is modelled as `Except ApiError`
with the single error kind `ApiError.notFound`.
-/

namespace Shortener

/-- Record stored per shortened URL: mirrors the Pydantic model `URLInfo`
(`id`, `long_url`, `short_code`, `short_url`, `clicks`). -/
structure URLInfo where
  id : String
  long_url : String
  short_code : String
  short_url : String
  clicks : Nat
deriving DecidableEq, Repr

/-- Response model of the shorten endpoint: mirrors `URLShortened`. -/
structure URLShortened where
  long_url : String
  short_code : String
  short_url : String
deriving DecidableEq, Repr

/-- The registry `fake_db`: an association list `short code ↦ URLInfo`,
in insertion order. -/
abbrev Registry := List (String × URLInfo)

/-- The single error kind of the core: `HTTPException 404`. -/
inductive ApiError where
  | notFound
deriving DecidableEq, Repr

/-- `string.ascii_letters + string.digits`: the 62-symbol alphabet used by
`generate_short_code`. -/
def characters : List Char :=
  "abcdefghijklmnopqrstuvwxyzABCDEFGHIJKLMNOPQRSTUVWXYZ0123456789".toList

theorem characters_length : characters.length = 62 := by decide

/-- Key set of the registry (`fake_db.keys()`). -/
def keys (db : Registry) : List String := db.map Prod.fst

/-- Dictionary lookup `fake_db[short_code]` / membership test
`short_code in fake_db`, as first-match search on the association list. -/
def find (db : Registry) (code : String) : Option URLInfo :=
  (db.find? (fun p => p.1 = code)).map Prod.snd

/-- One candidate code: attempt number `k` consumes the six character picks
`rnd (6*k) … rnd (6*k+5)`, i.e.
`''.join(random.choice(characters) for i in range(length))` with the
default `length = 6`. -/
def candidate (rnd : Nat → Fin 62) (k : Nat) : String :=
  String.mk ((List.range 6).map (fun i =>
    characters.get ((rnd (6 * k + i)).cast characters_length.symm)))

/-- The `while True` retry loop of `generate_short_code`, with explicit
fuel: try candidate `k`; if it is already a key of `fake_db`, retry with
the next attempt. -/
def genAux (rnd : Nat → Fin 62) (db : Registry) : Nat → Nat → Option String
  | 0, _ => none
  | fuel + 1, k =>
    let c := candidate rnd k
    if c ∈ keys db then genAux rnd db fuel (k + 1) else some c

/-- `generate_short_code(length=6)`: draw random candidates until one is
absent from `fake_db`. -/
def generate_short_code (rnd : Nat → Fin 62) (db : Registry) (fuel : Nat) :
    Option String :=
  genAux rnd db fuel 0

/-- `shorten_url` (POST `/shorten`): scan existing records for one whose
`long_url` equals the input and return its code if found; otherwise
generate a fresh code, insert a new record with `clicks = 0`, and return
it.  `base` is `str(request.base_url).rstrip('/')`, `newId` the
`uuid.uuid4()` value.  `none` only when the generator's fuel runs out. -/
def shorten_url (u base newId : String) (rnd : Nat → Fin 62) (fuel : Nat)
    (db : Registry) : Option (URLShortened × Registry) :=
  match db.find? (fun p => p.2.long_url = u) with
  | some p => some (⟨u, p.1, base ++ "/" ++ p.1⟩, db)
  | none =>
    match generate_short_code rnd db fuel with
    | none => none
    | some code =>
      let info : URLInfo :=
        ⟨newId, u, code, base ++ "/" ++ code, 0⟩
      some (⟨u, code, base ++ "/" ++ code⟩, db ++ [(code, info)])

/-- `url_info.clicks += 1`: increment the click counter of the record
stored under `code`, leaving every other entry unchanged. -/
def bump (db : Registry) (code : String) : Registry :=
  db.map (fun p => if p.1 = code then (p.1, { p.2 with clicks := p.2.clicks + 1 }) else p)

/-- `redirect_to_long_url` (GET `/{short_code}`): 404 if the code is
unknown, otherwise increment its click counter and return the long URL
(the target of the 307 redirect). -/
def redirect_to_long_url (code : String) (db : Registry) :
    Except ApiError (String × Registry) :=
  match find db code with
  | none => .error .notFound
  | some info => .ok (info.long_url, bump db code)

/-- `get_all_urls` (GET `/urls/all`): `list(fake_db.values())`. -/
def get_all_urls (db : Registry) : List URLInfo :=
  db.map Prod.snd

/-- `get_url_stats` (GET `/urls/{short_code}/stats`): 404 if the code is
unknown, otherwise return the stored record unchanged. -/
def get_url_stats (code : String) (db : Registry) : Except ApiError URLInfo :=
  match find db code with
  | none => .error .notFound
  | some info => .ok info

/-- The per-call inputs of one `shorten_url` request: the long URL, the
request's base URL, the fresh `uuid4` value, and this call's randomness. -/
structure ShortenCall where
  url : String
  base : String
  newId : String
  rnd : Nat → Fin 62
  fuel : Nat

/-- Run a sequence of `shorten_url` calls, threading the registry and
collecting the returned short codes in order. -/
def runShortens : List ShortenCall → Registry → Option (List String × Registry)
  | [], db => some ([], db)
  | a :: rest, db =>
    match shorten_url a.url a.base a.newId a.rnd a.fuel db with
    | none => none
    | some (res, db') =>
      match runShortens rest db' with
      | none => none
      | some (cs, db'') => some (res.short_code :: cs, db'')

/-- Run `redirect_to_long_url` on the same code `n` times in a row,
threading the registry. -/
def redirectN (code : String) : Nat → Registry → Except ApiError Registry
  | 0, db => .ok db
  | n + 1, db =>
    match redirect_to_long_url code db with
    | .error e => .error e
    | .ok (_, db') => redirectN code n db'

/-- Registry states reachable from the empty initial store by the two
mutating operations (`get_all_urls` and `get_url_stats` do not write). -/
inductive Reachable : Registry → Prop
  | init : Reachable []
  | shorten {db db' : Registry} {u base newId : String} {rnd : Nat → Fin 62}
      {fuel : Nat} {res : URLShortened} :
      Reachable db → shorten_url u base newId rnd fuel db = some (res, db') →
      Reachable db'
  | redirect {db db' : Registry} {code u : String} :
      Reachable db → redirect_to_long_url code db = .ok (u, db') →
      Reachable db'

/-- A well-formed short code: exactly 6 characters, each drawn from the
62-symbol alphabet. -/
def isCode (s : String) : Prop :=
  s.length = 6 ∧ ∀ c ∈ s.data, c ∈ characters

instance (s : String) : Decidable (isCode s) := by
  unfold isCode; infer_instance

/-- Decode a list of alphabet characters back to its base-62 value. -/
def decodeChars : List Char → Nat
  | [] => 0
  | c :: cs => characters.indexOf c + 62 * decodeChars cs

/-- A deterministic instance of the randomness source whose attempt `k`
spells out the base-62 digits of `k`: attempt `k` enumerates the `k`-th
length-6 code, so every code is eventually proposed. -/
def enumRnd (n : Nat) : Fin 62 :=
  ⟨n / 6 / 62 ^ (n % 6) % 62, Nat.mod_lt _ (by norm_num)⟩

/-! ### Basic lemmas about lookup, keys and the click bump -/

theorem find_cons_pos {a : String} {b : URLInfo} {t : Registry} {c : String}
    (h : a = c) : find ((a, b) :: t) c = some b := by
  simp [find, List.find?_cons_of_pos, h]

theorem find_cons_neg {a : String} {b : URLInfo} {t : Registry} {c : String}
    (h : ¬a = c) : find ((a, b) :: t) c = find t c := by
  simp [find, List.find?_cons_of_neg, h]

theorem keys_cons (a : String) (b : URLInfo) (t : Registry) :
    keys ((a, b) :: t) = a :: keys t := rfl

theorem find_eq_none_iff (db : Registry) (c : String) :
    find db c = none ↔ c ∉ keys db := by
  induction db with
  | nil => simp [find, keys]
  | cons p t ih =>
    obtain ⟨a, b⟩ := p
    rw [keys_cons]
    by_cases hc : a = c
    · rw [find_cons_pos hc]
      simp [hc]
    · rw [find_cons_neg hc, ih, List.mem_cons]
      constructor
      · intro h1 h2
        rcases h2 with h2 | h2
        · exact hc h2.symm
        · exact h1 h2
      · intro h1 h2
        exact h1 (Or.inr h2)

theorem find_mem {db : Registry} {c : String} {r : URLInfo}
    (h : find db c = some r) : (c, r) ∈ db := by
  induction db with
  | nil => simp [find] at h
  | cons p t ih =>
    obtain ⟨a, b⟩ := p
    by_cases hc : a = c
    · rw [find_cons_pos hc] at h
      cases h
      cases hc
      exact List.mem_cons_self _ _
    · rw [find_cons_neg hc] at h
      exact List.mem_cons_of_mem _ (ih h)

theorem find_of_mem_of_nodup {db : Registry} {c : String} {r : URLInfo}
    (hnd : (keys db).Nodup) (h : (c, r) ∈ db) : find db c = some r := by
  induction db with
  | nil => cases h
  | cons p t ih =>
    obtain ⟨a, b⟩ := p
    rw [keys_cons, List.nodup_cons] at hnd
    rcases List.mem_cons.mp h with h | h
    · cases h
      exact find_cons_pos rfl
    · by_cases hc : a = c
      · subst hc
        exact absurd (List.mem_map_of_mem Prod.fst h) hnd.1
      · rw [find_cons_neg hc]
        exact ih hnd.2 h

theorem find_append_left {db l : Registry} {c : String} {r : URLInfo}
    (h : find db c = some r) : find (db ++ l) c = some r := by
  simp only [find, Option.map_eq_some'] at h ⊢
  obtain ⟨p, hp, hr⟩ := h
  exact ⟨p, by simp [List.find?_append, hp], hr⟩

theorem find_append_new {db : Registry} {c : String} {r : URLInfo}
    (h : c ∉ keys db) : find (db ++ [(c, r)]) c = some r := by
  have h0 : find db c = none := (find_eq_none_iff db c).mpr h
  simp only [find, Option.map_eq_none'] at h0
  simp [find, List.find?_append, h0]

theorem keys_append (db l : Registry) : keys (db ++ l) = keys db ++ keys l := by
  simp [keys]

theorem bump_cons (p : String × URLInfo) (t : Registry) (code : String) :
    bump (p :: t) code =
      (if p.1 = code then (p.1, { p.2 with clicks := p.2.clicks + 1 }) else p)
        :: bump t code := by
  simp only [bump, List.map_cons]

theorem keys_bump (db : Registry) (code : String) :
    keys (bump db code) = keys db := by
  simp only [keys, bump, List.map_map]
  refine List.map_congr_left ?_
  intro p _
  by_cases h : p.1 = code <;> simp [h]

theorem find_bump_self {db : Registry} {code : String} {r : URLInfo}
    (h : find db code = some r) :
    find (bump db code) code = some { r with clicks := r.clicks + 1 } := by
  induction db with
  | nil => simp [find] at h
  | cons p t ih =>
    obtain ⟨a, b⟩ := p
    rw [bump_cons]
    by_cases hc : a = code
    · rw [find_cons_pos hc] at h
      cases h
      rw [if_pos hc]
      exact find_cons_pos hc
    · rw [find_cons_neg hc] at h
      rw [if_neg hc, find_cons_neg hc]
      exact ih h

theorem find_bump_ne {db : Registry} {code c : String} (h : ¬c = code) :
    find (bump db code) c = find db c := by
  induction db with
  | nil => simp [find, bump]
  | cons p t ih =>
    obtain ⟨a, b⟩ := p
    rw [bump_cons]
    by_cases h2 : a = code
    · have hpc : ¬a = c := fun hp => h (hp ▸ h2)
      rw [if_pos h2, find_cons_neg hpc, find_cons_neg hpc]
      exact ih
    · rw [if_neg h2]
      by_cases hpc : a = c
      · rw [find_cons_pos hpc, find_cons_pos hpc]
      · rw [find_cons_neg hpc, find_cons_neg hpc]
        exact ih

/-! ### Lemmas about the code generator -/

theorem genAux_some {rnd : Nat → Fin 62} {db : Registry} {fuel k : Nat}
    {c : String} (h : genAux rnd db fuel k = some c) :
    c ∉ keys db ∧ ∃ j, candidate rnd j = c := by
  induction fuel generalizing k with
  | zero => exact absurd h (by simp [genAux])
  | succ n ih =>
    rw [genAux] at h
    by_cases hc : candidate rnd k ∈ keys db
    · rw [if_pos hc] at h
      exact ih h
    · rw [if_neg hc] at h
      have hck : candidate rnd k = c := by simpa using h
      exact ⟨hck ▸ hc, k, hck⟩

theorem generate_short_code_spec {rnd : Nat → Fin 62} {db : Registry}
    {fuel : Nat} {c : String} (h : generate_short_code rnd db fuel = some c) :
    c ∉ keys db ∧ ∃ j, candidate rnd j = c :=
  genAux_some h

theorem candidate_length (rnd : Nat → Fin 62) (k : Nat) :
    (candidate rnd k).length = 6 := by
  simp [candidate, String.length]

theorem candidate_data_mem (rnd : Nat → Fin 62) (k : Nat) :
    ∀ ch ∈ (candidate rnd k).data, ch ∈ characters := by
  intro ch hch
  simp only [candidate, String.mk, List.mem_map] at hch
  obtain ⟨i, _, rfl⟩ := hch
  exact List.get_mem _ _ _

theorem candidate_isCode (rnd : Nat → Fin 62) (k : Nat) :
    isCode (candidate rnd k) :=
  ⟨candidate_length rnd k, candidate_data_mem rnd k⟩

/-! ### Case analysis of a successful shorten call -/

theorem shorten_url_eq_some {u base newId : String} {rnd : Nat → Fin 62}
    {fuel : Nat} {db db' : Registry} {res : URLShortened}
    (h : shorten_url u base newId rnd fuel db = some (res, db')) :
    (∃ p, db.find? (fun q => q.2.long_url = u) = some p ∧
      res = ⟨u, p.1, base ++ "/" ++ p.1⟩ ∧ db' = db) ∨
    (db.find? (fun q => q.2.long_url = u) = none ∧
      ∃ code, generate_short_code rnd db fuel = some code ∧
        res = ⟨u, code, base ++ "/" ++ code⟩ ∧
        db' = db ++ [(code, ⟨newId, u, code, base ++ "/" ++ code, 0⟩)]) := by
  rcases hfind : db.find? (fun q => q.2.long_url = u) with _ | p
  · rcases hgen : generate_short_code rnd db fuel with _ | code
    · exfalso
      rw [shorten_url, hfind, hgen] at h
      exact absurd h (by simp)
    · right
      rw [shorten_url, hfind, hgen] at h
      refine ⟨hfind, code, rfl, ?_⟩
      cases h
      exact ⟨rfl, rfl⟩
  · left
    rw [shorten_url, hfind] at h
    refine ⟨p, hfind, ?_⟩
    cases h
    exact ⟨rfl, rfl⟩

theorem shorten_url_keys_nodup {u base newId : String} {rnd : Nat → Fin 62}
    {fuel : Nat} {db db' : Registry} {res : URLShortened}
    (hnd : (keys db).Nodup)
    (h : shorten_url u base newId rnd fuel db = some (res, db')) :
    (keys db').Nodup := by
  rcases shorten_url_eq_some h with ⟨p, _, _, hdb⟩ | ⟨_, code, hgen, _, hdb⟩
  · rw [hdb]
    exact hnd
  · have hnew : code ∉ keys db := (generate_short_code_spec hgen).1
    rw [hdb, keys_append]
    simp only [List.nodup_append, keys, List.map_cons, List.map_nil,
      List.nodup_cons, List.not_mem_nil, not_false_iff, List.nodup_nil,
      List.mem_singleton, true_and, and_true, List.mem_cons, or_false,
      List.Disjoint]
    refine ⟨hnd, ?_⟩
    intro a ha hb
    exact hnew (hb ▸ ha)

theorem shorten_url_find_code {u base newId : String} {rnd : Nat → Fin 62}
    {fuel : Nat} {db db' : Registry} {res : URLShortened}
    (hnd : (keys db).Nodup)
    (h : shorten_url u base newId rnd fuel db = some (res, db')) :
    ∃ r, find db' res.short_code = some r ∧ r.long_url = u := by
  rcases shorten_url_eq_some h with ⟨p, hfind, hres, hdb⟩ | ⟨_, code, hgen, hres, hdb⟩
  · have hp : p ∈ db := List.mem_of_find?_eq_some hfind
    have hu : p.2.long_url = u := by simpa using List.find?_some hfind
    rw [hdb, hres]
    exact ⟨p.2, find_of_mem_of_nodup hnd hp, hu⟩
  · have hnew : code ∉ keys db := (generate_short_code_spec hgen).1
    rw [hdb, hres]
    exact ⟨_, find_append_new hnew, rfl⟩

theorem shorten_url_find_mono {u base newId : String} {rnd : Nat → Fin 62}
    {fuel : Nat} {db db' : Registry} {res : URLShortened}
    (h : shorten_url u base newId rnd fuel db = some (res, db'))
    {c : String} {r : URLInfo} (hc : find db c = some r) :
    find db' c = some r := by
  rcases shorten_url_eq_some h with ⟨p, _, _, hdb⟩ | ⟨_, code, _, _, hdb⟩
  · rw [hdb]
    exact hc
  · rw [hdb]
    exact find_append_left hc

/-! ### Case analysis of redirect and stats -/

theorem redirect_eq_ok {code u' : String} {db db' : Registry}
    (h : redirect_to_long_url code db = .ok (u', db')) :
    ∃ r, find db code = some r ∧ u' = r.long_url ∧ db' = bump db code := by
  rcases hf : find db code with _ | r
  · rw [redirect_to_long_url, hf] at h
    exact absurd h (by simp)
  · rw [redirect_to_long_url, hf] at h
    cases h
    exact ⟨r, rfl, rfl, rfl⟩

theorem redirect_ok_of_find {code : String} {db : Registry} {r : URLInfo}
    (hf : find db code = some r) :
    redirect_to_long_url code db = .ok (r.long_url, bump db code) := by
  rw [redirect_to_long_url, hf]

theorem redirect_eq_error_iff (code : String) (db : Registry) :
    redirect_to_long_url code db = .error .notFound ↔ code ∉ keys db := by
  rw [← find_eq_none_iff]
  rcases hf : find db code with _ | r
  · simp [redirect_to_long_url, hf]
  · simp [redirect_to_long_url, hf]

theorem stats_eq_ok_iff (code : String) (db : Registry) (r : URLInfo) :
    get_url_stats code db = .ok r ↔ find db code = some r := by
  rcases hf : find db code with _ | r'
  · simp [get_url_stats, hf]
  · simp [get_url_stats, hf]

theorem stats_eq_error_iff (code : String) (db : Registry) :
    get_url_stats code db = .error .notFound ↔ code ∉ keys db := by
  rw [← find_eq_none_iff]
  rcases hf : find db code with _ | r
  · simp [get_url_stats, hf]
  · simp [get_url_stats, hf]

/-! ### Invariants of reachable registry states -/

theorem countP_bump (db : Registry) (code : String) (q : String × URLInfo → Bool)
    (hq : ∀ a b n, q (a, { b with clicks := n }) = q (a, b)) :
    (bump db code).countP q = db.countP q := by
  rw [bump, List.countP_map]
  refine List.countP_congr ?_
  intro p _
  obtain ⟨a, b⟩ := p
  have hfx : (q ∘ fun p =>
      if p.1 = code then (p.1, { p.2 with clicks := p.2.clicks + 1 }) else p) (a, b)
      = q (a, b) := by
    by_cases h : a = code
    · subst h
      have hone : (if ((a, b) : String × URLInfo).1 = a
          then (((a, b) : String × URLInfo).1,
            { ((a, b) : String × URLInfo).2 with
                clicks := ((a, b) : String × URLInfo).2.clicks + 1 })
          else (a, b)) = (a, { b with clicks := b.clicks + 1 }) := by
        simp
      simp only [Function.comp_apply, hone]
      exact hq a b (b.clicks + 1)
    · simp [Function.comp_apply, h]
  rw [hfx]

theorem reachable_keys_nodup {db : Registry} (h : Reachable db) :
    (keys db).Nodup := by
  induction h with
  | init => simp [keys]
  | shorten _ hs ih => exact shorten_url_keys_nodup ih hs
  | redirect _ hr ih =>
    obtain ⟨r, _, _, hdb⟩ := redirect_eq_ok hr
    rw [hdb, keys_bump]
    exact ih

theorem shorten_url_countP_le_one {u0 base newId : String}
    {rnd : Nat → Fin 62} {fuel : Nat} {db db' : Registry} {res : URLShortened}
    (hle : ∀ u, db.countP (fun p => p.2.long_url = u) ≤ 1)
    (hs : shorten_url u0 base newId rnd fuel db = some (res, db')) :
    ∀ u, db'.countP (fun p => p.2.long_url = u) ≤ 1 := by
  intro u
  rcases shorten_url_eq_some hs with ⟨p, _, _, hdb⟩ | ⟨hnone, code, _, _, hdb⟩
  · rw [hdb]
    exact hle u
  · rw [hdb, List.countP_append, List.countP_singleton]
    by_cases hu : u0 = u
    · have hzero : db.countP (fun p => p.2.long_url = u) = 0 := by
        rw [List.countP_eq_zero]
        intro q hq
        have := List.find?_eq_none.mp hnone q hq
        simpa [hu] using this
      simp [hzero, hu]
    · have : decide ((⟨newId, u0, code, base ++ "/" ++ code, 0⟩ : URLInfo).long_url = u)
          = false := by
        simpa using hu
      simp only [this, if_false]
      simpa using hle u

theorem reachable_countP_le_one {db : Registry} (h : Reachable db) :
    ∀ u, db.countP (fun p => p.2.long_url = u) ≤ 1 := by
  induction h with
  | init =>
    intro u
    simp
  | shorten _ hs ih => exact shorten_url_countP_le_one ih hs
  | redirect _ hr ih =>
    intro u
    obtain ⟨r, _, _, hdb⟩ := redirect_eq_ok hr
    rw [hdb, countP_bump]
    · exact ih u
    · intro a b n
      rfl

theorem mem_bump {db : Registry} {code : String} {q : String × URLInfo}
    (h : q ∈ bump db code) :
    ∃ p ∈ db, q.1 = p.1 ∧ q.2.short_code = p.2.short_code := by
  rw [bump, List.mem_map] at h
  obtain ⟨p, hp, hfp⟩ := h
  refine ⟨p, hp, ?_⟩
  by_cases hc : p.1 = code
  · rw [← hfp]
    simp [hc]
  · rw [← hfp]
    simp [hc]

theorem reachable_short_code_eq_key {db : Registry} (h : Reachable db) :
    ∀ p ∈ db, p.2.short_code = p.1 := by
  induction h with
  | init =>
    intro p hp
    cases hp
  | shorten _ hs ih =>
    intro p hp
    rcases shorten_url_eq_some hs with ⟨q, _, _, hdb⟩ | ⟨_, code, _, _, hdb⟩
    · rw [hdb] at hp
      exact ih p hp
    · rw [hdb] at hp
      rcases List.mem_append.mp hp with hp | hp
      · exact ih p hp
      · rw [List.mem_singleton] at hp
        rw [hp]
  | redirect _ hr ih =>
    intro p hp
    obtain ⟨r, _, _, hdb⟩ := redirect_eq_ok hr
    rw [hdb] at hp
    obtain ⟨q, hq, h1, h2⟩ := mem_bump hp
    rw [h2, ih q hq, h1]

/-! ### Runs of several shorten calls -/

theorem runShortens_find_mono {calls : List ShortenCall} {db db' : Registry}
    {codes : List String}
    (hrun : runShortens calls db = some (codes, db'))
    {c : String} {r : URLInfo} (hc : find db c = some r) :
    find db' c = some r := by
  induction calls generalizing db codes with
  | nil =>
    rw [runShortens] at hrun
    cases hrun
    exact hc
  | cons a rest ih =>
    rw [runShortens] at hrun
    rcases hs : shorten_url a.url a.base a.newId a.rnd a.fuel db with _ | ⟨res, db1⟩
    · rw [hs] at hrun
      exact absurd hrun (by simp)
    · rw [hs] at hrun
      change (match runShortens rest db1 with
        | none => none
        | some (cs, db2) => some (res.short_code :: cs, db2)) = some (codes, db')
        at hrun
      rcases hrest : runShortens rest db1 with _ | ⟨cs, db2⟩
      · rw [hrest] at hrun
        exact absurd hrun (by simp)
      · rw [hrest] at hrun
        cases hrun
        exact ih hrest (shorten_url_find_mono hs hc)

theorem runShortens_spec {calls : List ShortenCall} {db db' : Registry}
    {codes : List String}
    (hnd : (keys db).Nodup)
    (hrun : runShortens calls db = some (codes, db')) :
    (keys db').Nodup ∧
      List.Forall₂ (fun c u => ∃ r, find db' c = some r ∧ r.long_url = u)
        codes (calls.map ShortenCall.url) := by
  induction calls generalizing db codes with
  | nil =>
    rw [runShortens] at hrun
    cases hrun
    exact ⟨hnd, by simp⟩
  | cons a rest ih =>
    rw [runShortens] at hrun
    rcases hs : shorten_url a.url a.base a.newId a.rnd a.fuel db with _ | ⟨res, db1⟩
    · rw [hs] at hrun
      exact absurd hrun (by simp)
    · rw [hs] at hrun
      change (match runShortens rest db1 with
        | none => none
        | some (cs, db2) => some (res.short_code :: cs, db2)) = some (codes, db')
        at hrun
      rcases hrest : runShortens rest db1 with _ | ⟨cs, db2⟩
      · rw [hrest] at hrun
        exact absurd hrun (by simp)
      · rw [hrest] at hrun
        cases hrun
        have hnd1 : (keys db1).Nodup := shorten_url_keys_nodup hnd hs
        obtain ⟨hnd2, hfa⟩ := ih hnd1 hrest
        obtain ⟨r, hr, hru⟩ := shorten_url_find_code hnd hs
        have hr2 : find db' res.short_code = some r := runShortens_find_mono hrest hr
        exact ⟨hnd2, List.Forall₂.cons ⟨r, hr2, hru⟩ hfa⟩

theorem codes_nodup_of_forall₂ {db' : Registry} {codes urls : List String}
    (hfa : List.Forall₂ (fun c u => ∃ r, find db' c = some r ∧ r.long_url = u)
      codes urls)
    (hu : urls.Nodup) : codes.Nodup := by
  rw [List.forall₂_iff_get] at hfa
  obtain ⟨hlen, hget⟩ := hfa
  rw [List.nodup_iff_injective_get] at hu ⊢
  intro i j hij
  obtain ⟨ri, hri, hui⟩ := hget i.val i.isLt (hlen ▸ i.isLt)
  obtain ⟨rj, hrj, huj⟩ := hget j.val j.isLt (hlen ▸ j.isLt)
  have hcij : codes.get ⟨i.val, i.isLt⟩ = codes.get ⟨j.val, j.isLt⟩ := hij
  have hsome : some ri = some rj := by
    rw [← hri, ← hrj, hcij]
  have hrij : ri = rj := by
    cases hsome
    rfl
  have huij : urls.get ⟨i.val, hlen ▸ i.isLt⟩ = urls.get ⟨j.val, hlen ▸ j.isLt⟩ := by
    rw [← hui, ← huj, hrij]
  have hval : i.val = j.val := by
    have h5 := hu huij
    simpa using h5
  exact Fin.ext hval

/-! ### Iterated redirects and generator termination -/

theorem redirectN_clicks {code : String} {db : Registry} {r : URLInfo}
    (hf : find db code = some r) (K : Nat) :
    ∃ dbK, redirectN code K db = .ok dbK ∧
      find dbK code = some { r with clicks := r.clicks + K } := by
  induction K generalizing db r with
  | zero =>
    refine ⟨db, rfl, ?_⟩
    have heq : ({ r with clicks := r.clicks + 0 } : URLInfo) = r := by
      cases r
      rfl
    rw [heq]
    exact hf
  | succ K ih =>
    have h1 : find (bump db code) code = some { r with clicks := r.clicks + 1 } :=
      find_bump_self hf
    obtain ⟨dbK, hrun, hfind⟩ := ih h1
    refine ⟨dbK, ?_, ?_⟩
    · rw [redirectN, redirect_ok_of_find hf]
      exact hrun
    · have harith : r.clicks + (K + 1) = r.clicks + 1 + K := by omega
      rw [harith]
      exact hfind

theorem genAux_isSome {rnd : Nat → Fin 62} {db : Registry} :
    ∀ fuel k, (∃ i, k ≤ i ∧ i < k + fuel ∧ candidate rnd i ∉ keys db) →
    ∃ c, genAux rnd db fuel k = some c := by
  intro fuel
  induction fuel with
  | zero =>
    rintro k ⟨i, h1, h2, _⟩
    omega
  | succ n ih =>
    rintro k ⟨i, h1, h2, hfree⟩
    rw [genAux]
    by_cases hc : candidate rnd k ∈ keys db
    · rw [if_pos hc]
      refine ih (k + 1) ⟨i, ?_, by omega, hfree⟩
      have hik : i ≠ k := fun he => hfree (he ▸ hc)
      omega
    · rw [if_neg hc]
      exact ⟨_, rfl⟩

/-! ### The enumerating randomness source proposes every code -/

theorem characters_nodup : characters.Nodup := by decide

theorem indexOf_characters_lt {c : Char} (h : c ∈ characters) :
    characters.indexOf c < 62 := by
  have := List.indexOf_lt_length.mpr h
  rwa [characters_length] at this

theorem decodeChars_digit :
    ∀ (l : List Char), (∀ c ∈ l, c ∈ characters) →
      ∀ i (h : i < l.length),
        decodeChars l / 62 ^ i % 62 = characters.indexOf (l.get ⟨i, h⟩) := by
  intro l
  induction l with
  | nil =>
    intro _ i h
    exact absurd h (Nat.not_lt_zero i)
  | cons c cs ih =>
    intro hmem i h
    have hidx : characters.indexOf c < 62 :=
      indexOf_characters_lt (hmem c (List.mem_cons_self c cs))
    cases i with
    | zero =>
      rw [decodeChars, Nat.pow_zero, Nat.div_one, Nat.add_mul_mod_self_left,
        Nat.mod_eq_of_lt hidx]
      rfl
    | succ i =>
      rw [decodeChars]
      have h62 : (62 : Nat) ^ (i + 1) = 62 * 62 ^ i := by
        rw [pow_succ, Nat.mul_comm]
      rw [h62, ← Nat.div_div_eq_div_mul,
        Nat.add_mul_div_left _ _ (by norm_num : 0 < (62 : Nat)),
        Nat.div_eq_of_lt hidx, Nat.zero_add]
      exact ih (fun x hx => hmem x (List.mem_cons_of_mem c hx)) i
        (Nat.lt_of_succ_lt_succ h)

theorem enumRnd_eval (k i : Nat) (hi : i < 6) :
    enumRnd (6 * k + i) = ⟨k / 62 ^ i % 62, Nat.mod_lt _ (by norm_num)⟩ := by
  apply Fin.ext
  show (6 * k + i) / 6 / 62 ^ ((6 * k + i) % 6) % 62 = k / 62 ^ i % 62
  have h1 : (6 * k + i) / 6 = k := by
    rw [Nat.mul_add_div (by norm_num : 0 < 6), Nat.div_eq_of_lt hi, Nat.add_zero]
  have h2 : (6 * k + i) % 6 = i := by
    rw [Nat.mul_add_mod]
    exact Nat.mod_eq_of_lt hi
  rw [h1, h2]

theorem enumRnd_covers (s : String) (hs : isCode s) :
    candidate enumRnd (decodeChars s.data) = s := by
  obtain ⟨hlen, hmem⟩ := hs
  obtain ⟨data⟩ := s
  show String.mk _ = String.mk data
  refine congrArg String.mk ?_
  have hdlen : data.length = 6 := hlen
  apply List.ext_get
  · simp [hdlen]
  · intro i h1 h2
    have hi6 : i < 6 := by
      simpa using h1
    rw [List.get_eq_getElem, List.get_eq_getElem, List.getElem_map,
      List.getElem_range, enumRnd_eval _ i hi6, Fin.cast_mk]
    have hdig := decodeChars_digit data hmem i h2
    rw [List.get_eq_getElem] at hdig
    have hin : data[i] ∈ characters := hmem _ (List.getElem_mem h2)
    have hlt : characters.indexOf data[i] < characters.length := by
      rw [characters_length]
      exact indexOf_characters_lt hin
    rw [← List.indexOf_get hlt]
    exact congrArg characters.get (Fin.ext (by simpa using hdig))

/-! ### The claims -/

/-- C1: Short-code uniqueness.  For every sequence of shorten calls with
pairwise-distinct long URLs starting from any reachable registry state, the
short codes returned are pairwise distinct; moreover the final key set has
no duplicates and, in every reachable registry state, no two records share
a short code. -/
theorem C1_short_code_uniqueness {calls : List ShortenCall}
    {db db' : Registry} {codes : List String}
    (hreach : Reachable db)
    (hurls : (calls.map ShortenCall.url).Nodup)
    (hrun : runShortens calls db = some (codes, db')) :
    codes.Nodup ∧ (keys db').Nodup ∧
      ∀ db0, Reachable db0 → (keys db0).Nodup := by
  obtain ⟨hnd', hfa⟩ := runShortens_spec (reachable_keys_nodup hreach) hrun
  exact ⟨codes_nodup_of_forall₂ hfa hurls, hnd',
    fun db0 h0 => reachable_keys_nodup h0⟩

/-- C2: Idempotence of create-or-retrieve.  Calling `shorten_url` twice in
succession with the same long URL returns the same short code both times,
the second call leaves the registry unchanged, and afterwards the registry
holds exactly one record whose long URL is the given one. -/
theorem C2_create_or_retrieve_idempotent {u b1 b2 i1 i2 : String}
    {r1 r2 : Nat → Fin 62} {f1 f2 : Nat} {db db1 db2 : Registry}
    {res1 res2 : URLShortened}
    (hreach : Reachable db)
    (h1 : shorten_url u b1 i1 r1 f1 db = some (res1, db1))
    (h2 : shorten_url u b2 i2 r2 f2 db1 = some (res2, db2)) :
    res2.short_code = res1.short_code ∧ db2 = db1 ∧
      db1.countP (fun p => p.2.long_url = u) = 1 := by
  have hle := reachable_countP_le_one hreach u
  have key : ∃ q, db1.find? (fun p => p.2.long_url = u) = some q ∧
      q.1 = res1.short_code ∧
      db1.countP (fun p => p.2.long_url = u) = 1 := by
    rcases shorten_url_eq_some h1 with
      ⟨p, hfind, hres, hdb⟩ | ⟨hnone, code, hgen, hres, hdb⟩
    · refine ⟨p, ?_, ?_, ?_⟩
      · rw [hdb]
        exact hfind
      · rw [hres]
      · rw [hdb]
        refine Nat.le_antisymm hle ?_
        have hp : p ∈ db := List.mem_of_find?_eq_some hfind
        have hpu := List.find?_some hfind
        exact List.countP_pos_iff.mpr ⟨p, hp, hpu⟩
    · refine ⟨(code, ⟨i1, u, code, b1 ++ "/" ++ code, 0⟩), ?_, ?_, ?_⟩
      · rw [hdb, List.find?_append, hnone]
        simp
      · rw [hres]
      · rw [hdb, List.countP_append, List.countP_singleton]
        have h0 : db.countP (fun p => p.2.long_url = u) = 0 := by
          rw [List.countP_eq_zero]
          exact fun q hq => List.find?_eq_none.mp hnone q hq
        simp [h0]
  obtain ⟨q, hq, hq1, hcount⟩ := key
  rcases shorten_url_eq_some h2 with
    ⟨p', hfind', hres', hdb'⟩ | ⟨hnone', _, _, _, _⟩
  · have hpq : p' = q := by
      rw [hq] at hfind'
      cases hfind'
      rfl
    refine ⟨?_, hdb', hcount⟩
    rw [hres', hpq, hq1]
  · rw [hq] at hnone'
    cases hnone'

/-- C3: Redirect correctness.  If a shorten call for long URL `u` returns
short code `res.short_code`, then a subsequent redirect on that code
succeeds and the target of the redirect is exactly `u`. -/
theorem C3_redirect_correctness {u base newId : String} {rnd : Nat → Fin 62}
    {fuel : Nat} {db db' : Registry} {res : URLShortened}
    (hreach : Reachable db)
    (h : shorten_url u base newId rnd fuel db = some (res, db')) :
    ∃ db2, redirect_to_long_url res.short_code db' = .ok (u, db2) := by
  obtain ⟨r, hr, hru⟩ := shorten_url_find_code (reachable_keys_nodup hreach) h
  refine ⟨bump db' res.short_code, ?_⟩
  rw [redirect_ok_of_find hr, hru]

/-- C4: Click counting.  A record freshly created by a shorten call has
click count 0; every successful redirect on a stored code increments that
record's counter by exactly 1; and after exactly `K` redirects on the fresh
code, stats on that code reports click count `K`. -/
theorem C4_click_counting {u base newId : String} {rnd : Nat → Fin 62}
    {fuel : Nat} {db db' : Registry} {res : URLShortened} (K : Nat)
    (hfresh : db.find? (fun p => p.2.long_url = u) = none)
    (h : shorten_url u base newId rnd fuel db = some (res, db')) :
    (∃ r0, find db' res.short_code = some r0 ∧ r0.clicks = 0) ∧
    (∃ dbK rK, redirectN res.short_code K db' = .ok dbK ∧
      get_url_stats res.short_code dbK = .ok rK ∧ rK.clicks = K) ∧
    (∀ db0 r0, find db0 res.short_code = some r0 →
      ∃ db1, redirect_to_long_url res.short_code db0 = .ok (r0.long_url, db1) ∧
        find db1 res.short_code = some { r0 with clicks := r0.clicks + 1 }) := by
  rcases shorten_url_eq_some h with
    ⟨p, hfind, _, _⟩ | ⟨_, code, hgen, hres, hdb⟩
  · rw [hfind] at hfresh
    cases hfresh
  · have hnew : code ∉ keys db := (generate_short_code_spec hgen).1
    have hf0 : find db' res.short_code =
        some ⟨newId, u, code, base ++ "/" ++ code, 0⟩ := by
      rw [hdb, hres]
      exact find_append_new hnew
    refine ⟨⟨_, hf0, rfl⟩, ?_, ?_⟩
    · obtain ⟨dbK, hrun, hfK⟩ := redirectN_clicks hf0 K
      refine ⟨dbK, _, hrun, (stats_eq_ok_iff _ _ _).mpr hfK, ?_⟩
      simp
    · intro db0 r0 hf
      exact ⟨bump db0 res.short_code, redirect_ok_of_find hf, find_bump_self hf⟩

/-- C5: Not-found behavior.  Redirect and stats fail with `NotFound`
exactly when the supplied short code is absent from the registry's key set;
a shorten call never raises `NotFound`: its only failure mode (an artifact
of the fuelled embedding of the retry loop) is the generator running out of
fuel with no duplicate-URL hit. -/
theorem C5_not_found_iff :
    (∀ code db, redirect_to_long_url code db = .error .notFound ↔
      code ∉ keys db) ∧
    (∀ code db, get_url_stats code db = .error .notFound ↔ code ∉ keys db) ∧
    (∀ u base newId rnd fuel db,
      shorten_url u base newId rnd fuel db = none ↔
        (db.find? (fun p => p.2.long_url = u) = none ∧
          generate_short_code rnd db fuel = none)) := by
  refine ⟨redirect_eq_error_iff, stats_eq_error_iff, ?_⟩
  intro u base newId rnd fuel db
  rcases hfind : db.find? (fun p => p.2.long_url = u) with _ | p
  · rcases hgen : generate_short_code rnd db fuel with _ | code
    · simp [shorten_url, hfind, hgen]
    · simp [shorten_url, hfind, hgen]
  · simp [shorten_url, hfind]

/-- C6: Code-generator contract.  Every code returned by the generator is a
string of exactly 6 characters drawn from the 62-symbol alphabet of letters
and digits, and is absent from the registry's key set; the generator is a
pure function and returns no modified registry. -/
theorem C6_generator_contract {rnd : Nat → Fin 62} {db : Registry}
    {fuel : Nat} {c : String}
    (h : generate_short_code rnd db fuel = some c) :
    c.length = 6 ∧ (∀ ch ∈ c.data, ch ∈ characters) ∧
      characters.length = 62 ∧ c ∉ keys db := by
  obtain ⟨hnot, j, hj⟩ := generate_short_code_spec h
  exact ⟨hj ▸ candidate_length rnd j, hj ▸ candidate_data_mem rnd j,
    characters_length, hnot⟩

/-- C7: Stats is a read-only snapshot.  Stats succeeds with record `r`
exactly when `r` is the record stored under the code, returned whole (all
fields); the operation is a pure function of the registry and returns no
modified registry, so nothing is changed — in particular no click-count
increment. -/
theorem C7_stats_readonly_snapshot :
    ∀ code db r, get_url_stats code db = .ok r ↔ find db code = some r :=
  fun code db r => stats_eq_ok_iff code db r

/-- C8: Listing completeness.  In any reachable registry state the listing
returns exactly one record per stored short code and nothing else, and each
returned record is the one stored under its code; the operation is pure and
modifies nothing. -/
theorem C8_listing_completeness {db : Registry} (hreach : Reachable db) :
    (get_all_urls db).length = (keys db).length ∧
    ∀ r, r ∈ get_all_urls db ↔ ∃ c, c ∈ keys db ∧ find db c = some r := by
  have hnd := reachable_keys_nodup hreach
  constructor
  · simp [get_all_urls, keys]
  · intro r
    constructor
    · intro hr
      rw [get_all_urls, List.mem_map] at hr
      obtain ⟨p, hp, hpr⟩ := hr
      refine ⟨p.1, List.mem_map_of_mem Prod.fst hp, ?_⟩
      refine find_of_mem_of_nodup hnd ?_
      rw [← hpr]
      exact hp
    · rintro ⟨c, _, hfind⟩
      rw [get_all_urls, List.mem_map]
      exact ⟨(c, r), find_mem hfind, rfl⟩

/-- C9: Bounded-time completion of code generation.  If the randomness
source eventually proposes every well-formed code (the formal counterpart
of per-character uniform randomness) and the registry does not already
contain all `62^6` length-6 codes, then the retry loop terminates: some
finite fuel makes the generator return a code. -/
theorem C9_generation_terminates {rnd : Nat → Fin 62} {db : Registry}
    (hcover : ∀ s, isCode s → ∃ k, candidate rnd k = s)
    (hfree : ∃ s, isCode s ∧ s ∉ keys db) :
    ∃ fuel c, generate_short_code rnd db fuel = some c := by
  obtain ⟨s, hs, hsfree⟩ := hfree
  obtain ⟨k, hk⟩ := hcover s hs
  have hc : candidate rnd k ∉ keys db := hk ▸ hsfree
  obtain ⟨c, hgen⟩ := genAux_isSome (k + 1) 0 ⟨k, Nat.zero_le _, by omega, hc⟩
  exact ⟨k + 1, c, hgen⟩

/-- C10: Key-field agreement.  In every reachable registry state, the
record stored under a short code has its `short_code` field equal to that
key; the invariant holds initially and is preserved by every operation. -/
theorem C10_key_field_agreement {db : Registry} (hreach : Reachable db) :
    ∀ p ∈ db, p.2.short_code = p.1 :=
  reachable_short_code_eq_key hreach

/-! ### Concrete witnesses -/

/-- C1 witness: two shorten calls with distinct URLs from the empty
registry yield the distinct codes `"aaaaaa"` and `"bbbbbb"`. -/
theorem C1_short_code_uniqueness_witness :
    (["aaaaaa", "bbbbbb"] : List String).Nodup ∧
    (keys [("aaaaaa", URLInfo.mk "id1" "https://a.example/" "aaaaaa" "http://h/aaaaaa" 0),
      ("bbbbbb", URLInfo.mk "id2" "https://b.example/" "bbbbbb" "http://h/bbbbbb" 0)]).Nodup :=
  ⟨(@C1_short_code_uniqueness
      [⟨"https://a.example/", "http://h", "id1", fun _ => 0, 1⟩,
        ⟨"https://b.example/", "http://h", "id2", fun _ => 1, 1⟩]
      [] [("aaaaaa", URLInfo.mk "id1" "https://a.example/" "aaaaaa" "http://h/aaaaaa" 0),
        ("bbbbbb", URLInfo.mk "id2" "https://b.example/" "bbbbbb" "http://h/bbbbbb" 0)]
      ["aaaaaa", "bbbbbb"] Reachable.init (by decide) (by decide)).1,
   (@C1_short_code_uniqueness
      [⟨"https://a.example/", "http://h", "id1", fun _ => 0, 1⟩,
        ⟨"https://b.example/", "http://h", "id2", fun _ => 1, 1⟩]
      [] [("aaaaaa", URLInfo.mk "id1" "https://a.example/" "aaaaaa" "http://h/aaaaaa" 0),
        ("bbbbbb", URLInfo.mk "id2" "https://b.example/" "bbbbbb" "http://h/bbbbbb" 0)]
      ["aaaaaa", "bbbbbb"] Reachable.init (by decide) (by decide)).2.1⟩

/-- C2 witness: shortening `"u"` twice from the empty registry returns the
code `"aaaaaa"` both times, leaves the registry unchanged, and the registry
holds exactly one record for `"u"`. -/
theorem C2_create_or_retrieve_idempotent_witness :
    ("aaaaaa" : String) = "aaaaaa" ∧
    ([("aaaaaa", URLInfo.mk "i1" "u" "aaaaaa" "b/aaaaaa" 0)] : Registry)
      = [("aaaaaa", URLInfo.mk "i1" "u" "aaaaaa" "b/aaaaaa" 0)] ∧
    ([("aaaaaa", URLInfo.mk "i1" "u" "aaaaaa" "b/aaaaaa" 0)] : Registry).countP
      (fun p => p.2.long_url = "u") = 1 :=
  @C2_create_or_retrieve_idempotent "u" "b" "b2" "i1" "i2"
    (fun _ => 0) (fun _ => 1) 1 1
    [] [("aaaaaa", URLInfo.mk "i1" "u" "aaaaaa" "b/aaaaaa" 0)]
    [("aaaaaa", URLInfo.mk "i1" "u" "aaaaaa" "b/aaaaaa" 0)]
    (URLShortened.mk "u" "aaaaaa" "b/aaaaaa")
    (URLShortened.mk "u" "aaaaaa" "b2/aaaaaa")
    Reachable.init (by decide) (by decide)

/-- C3 witness: after shortening `"u"` to `"aaaaaa"`, redirecting on
`"aaaaaa"` succeeds and returns `"u"`. -/
theorem C3_redirect_correctness_witness :
    ∃ db2, redirect_to_long_url "aaaaaa"
      [("aaaaaa", URLInfo.mk "i" "u" "aaaaaa" "b/aaaaaa" 0)]
      = Except.ok ("u", db2) :=
  @C3_redirect_correctness "u" "b" "i" (fun _ => 0) 1
    [] [("aaaaaa", URLInfo.mk "i" "u" "aaaaaa" "b/aaaaaa" 0)]
    (URLShortened.mk "u" "aaaaaa" "b/aaaaaa")
    Reachable.init (by decide)

/-- C4 witness: the record freshly created for `"u"` has click count 0 and
after 2 redirects its stats report click count 2. -/
theorem C4_click_counting_witness :
    (∃ r0, find [("aaaaaa", URLInfo.mk "i" "u" "aaaaaa" "b/aaaaaa" 0)] "aaaaaa"
      = some r0 ∧ r0.clicks = 0) ∧
    (∃ dbK rK, redirectN "aaaaaa" 2
        [("aaaaaa", URLInfo.mk "i" "u" "aaaaaa" "b/aaaaaa" 0)] = Except.ok dbK ∧
      get_url_stats "aaaaaa" dbK = Except.ok rK ∧ rK.clicks = 2) :=
  ⟨(@C4_click_counting "u" "b" "i" (fun _ => 0) 1
      [] [("aaaaaa", URLInfo.mk "i" "u" "aaaaaa" "b/aaaaaa" 0)]
      (URLShortened.mk "u" "aaaaaa" "b/aaaaaa") 2 (by decide) (by decide)).1,
   (@C4_click_counting "u" "b" "i" (fun _ => 0) 1
      [] [("aaaaaa", URLInfo.mk "i" "u" "aaaaaa" "b/aaaaaa" 0)]
      (URLShortened.mk "u" "aaaaaa" "b/aaaaaa") 2 (by decide) (by decide)).2.1⟩

/-- C6 witness: with fuel 1 and a constant randomness source the generator
returns `"aaaaaa"`, which has length 6, is drawn from the 62-symbol
alphabet, and is absent from the empty registry. -/
theorem C6_generator_contract_witness :
    ("aaaaaa" : String).length = 6 ∧ characters.length = 62 ∧
    "aaaaaa" ∉ keys ([] : Registry) ∧ 'a' ∈ characters :=
  ⟨(@C6_generator_contract (fun _ => 0) [] 1 "aaaaaa" (by decide)).1,
   (@C6_generator_contract (fun _ => 0) [] 1 "aaaaaa" (by decide)).2.2.1,
   (@C6_generator_contract (fun _ => 0) [] 1 "aaaaaa" (by decide)).2.2.2,
   (@C6_generator_contract (fun _ => 0) [] 1 "aaaaaa" (by decide)).2.1
     'a' (by decide)⟩

/-- C8 witness: in the reachable one-record registry, the listing has one
entry per key and contains exactly the stored record. -/
theorem C8_listing_completeness_witness :
    (get_all_urls [("aaaaaa", URLInfo.mk "i1" "u" "aaaaaa" "b/aaaaaa" 0)]).length
      = (keys [("aaaaaa", URLInfo.mk "i1" "u" "aaaaaa" "b/aaaaaa" 0)]).length ∧
    (URLInfo.mk "i1" "u" "aaaaaa" "b/aaaaaa" 0
        ∈ get_all_urls [("aaaaaa", URLInfo.mk "i1" "u" "aaaaaa" "b/aaaaaa" 0)] ↔
      ∃ c, c ∈ keys [("aaaaaa", URLInfo.mk "i1" "u" "aaaaaa" "b/aaaaaa" 0)] ∧
        find [("aaaaaa", URLInfo.mk "i1" "u" "aaaaaa" "b/aaaaaa" 0)] c
          = some (URLInfo.mk "i1" "u" "aaaaaa" "b/aaaaaa" 0)) :=
  ⟨(C8_listing_completeness (Reachable.shorten Reachable.init
      (by decide : shorten_url "u" "b" "i1" (fun _ => 0) 1 []
        = some (URLShortened.mk "u" "aaaaaa" "b/aaaaaa",
          [("aaaaaa", URLInfo.mk "i1" "u" "aaaaaa" "b/aaaaaa" 0)])))).1,
   (C8_listing_completeness (Reachable.shorten Reachable.init
      (by decide : shorten_url "u" "b" "i1" (fun _ => 0) 1 []
        = some (URLShortened.mk "u" "aaaaaa" "b/aaaaaa",
          [("aaaaaa", URLInfo.mk "i1" "u" "aaaaaa" "b/aaaaaa" 0)])))).2
    (URLInfo.mk "i1" "u" "aaaaaa" "b/aaaaaa" 0)⟩

/-- C9 witness: the enumerating randomness source proposes every code, the
empty registry misses the code `"aaaaaa"`, and generation terminates. -/
theorem C9_generation_terminates_witness :
    (∃ s, isCode s ∧ s ∉ keys ([] : Registry)) ∧
    (∃ fuel c, generate_short_code enumRnd [] fuel = some c) :=
  ⟨⟨"aaaaaa", by decide, by decide⟩,
   @C9_generation_terminates enumRnd []
     (fun s hs => ⟨decodeChars s.data, enumRnd_covers s hs⟩)
     ⟨"aaaaaa", by decide, by decide⟩⟩

/-- C10 witness: in the reachable one-record registry, the record stored
under `"aaaaaa"` carries `"aaaaaa"` in its `short_code` field. -/
theorem C10_key_field_agreement_witness :
    (URLInfo.mk "i1" "u" "aaaaaa" "b/aaaaaa" 0).short_code = "aaaaaa" :=
  C10_key_field_agreement (Reachable.shorten Reachable.init
      (by decide : shorten_url "u" "b" "i1" (fun _ => 0) 1 []
        = some (URLShortened.mk "u" "aaaaaa" "b/aaaaaa",
          [("aaaaaa", URLInfo.mk "i1" "u" "aaaaaa" "b/aaaaaa" 0)])))
    ("aaaaaa", URLInfo.mk "i1" "u" "aaaaaa" "b/aaaaaa" 0) (by decide)

end Shortener
